import Mathlib

/-!
# Verification of the `pathfmt` path-template library

The repository contains two variants of the same small library:

* the current variant (`format.go`): a compiled template stores every
  slash-separated segment (static text or variable name) and the matcher
  fails on a static-segment mismatch ("strict" variant);
* an earlier variant (`unnamed/part_000`): a compiled template stores only
  the named (variable) segments together with their indices, and the matcher
  never fails ("lenient" variant).

Go strings are modeled as `List Char`, Go maps as functions
`GoString → Option GoString` (a Go map is a finite key-value store with
last-write-wins insertion; the function model captures its content exactly).
The reflection-based record binder is modeled on an explicit field list: a
`GoField` carries the field name, the value of `Tag.Get "path"` (which is the
empty string when the tag is absent — Go cannot distinguish an absent tag from
an empty one), the `CanSet` flag, and the field's current value.  The
pointer/struct kind checks at the top of `ToStruct` are not modeled: the
target is always a struct passed by pointer here.
-/

set_option autoImplicit false

abbrev GoString := List Char

def gs (s : String) : GoString := s.data

/-- Go `strings.TrimPrefix(s, pre)`: drop `pre` from the front when present. -/
def trimHead (pre s : GoString) : GoString :=
  if pre.isPrefixOf s then s.drop pre.length else s

/-- Go `strings.TrimSuffix(s, suf)`: drop `suf` from the back when present. -/
def trimTail (suf s : GoString) : GoString :=
  if suf.isSuffixOf s then s.take (s.length - suf.length) else s

/-- Go `strings.Split(s, string(c))` for a one-character separator, written so
that the result is always nonempty by construction (as `strings.Split` is for
a nonempty separator). -/
def splitCharNE (c : Char) : GoString → GoString × List GoString
  | [] => ([], [])
  | a :: as =>
    let r := splitCharNE c as
    if a = c then ([], r.1 :: r.2) else (a :: r.1, r.2)

def splitChar (c : Char) (s : GoString) : List GoString :=
  (splitCharNE c s).1 :: (splitCharNE c s).2

/-- `split` from both variants: `strings.Split(strings.TrimPrefix(s, "/"), "/")`. -/
def split (s : GoString) : List GoString :=
  splitChar '/' (trimHead (gs "/") s)

/-- Go `strings.Join(parts, string(c))`. -/
def goJoin (c : Char) : List GoString → GoString
  | [] => []
  | [x] => x
  | x :: xs => x ++ c :: goJoin c xs

/-- The condition `strings.HasPrefix(s, "{") && strings.HasSuffix(s, "}")`
used by `New` in both variants to recognize a variable token. -/
def isVarTok (s : GoString) : Bool :=
  (gs "\x7b").isPrefixOf s && (gs "\x7d").isSuffixOf s

/-- `strings.TrimSuffix(strings.TrimPrefix(s, "{"), "}")`: the variable name
extracted from a token. -/
def varName (s : GoString) : GoString :=
  trimTail (gs "\x7d") (trimHead (gs "\x7b") s)

/-- The Go map `map[string]string`, modeled by content. -/
def SMap := GoString → Option GoString

def SMap.empty : SMap := fun _ => none

/-- `m[k] = v` on a Go map. -/
def SMap.insert (m : SMap) (k v : GoString) : SMap :=
  fun q => if q = k then some v else m q

/-! ## The strict variant (`format.go`) -/

namespace Strict

/-- `part` from `format.go`; exactly one of the two fields is nonempty for
parts produced by `New` (the zero value of the other field is `""`).  The
matcher discriminates on `variable != ""`.  The Go field `variable` is named
`var` here (`variable` is a Lean keyword). -/
structure Part where
  static : GoString
  var : GoString
  deriving DecidableEq, Repr

/-- How `New` turns one raw token into a `part`. -/
def tokPart (s : GoString) : Part :=
  if isVarTok s then { static := [], var := varName s }
  else { static := s, var := [] }

structure Format where
  str : GoString
  parts : List Part
  deriving DecidableEq, Repr

/-- `New` from `format.go`. -/
def New (path : GoString) : Format :=
  { str := path, parts := (split path).map tokPart }

/-- The data carried by the strict matcher's error
`fmt.Errorf("expected format %q: got %q: expected string %q, got %q",
f.str, path, f.parts[i].static, s)`. -/
structure MismatchError where
  format : GoString
  path : GoString
  expected : GoString
  actual : GoString
  deriving DecidableEq, Repr

/-- The loop body of `Format.ToMap` from `format.go`: walk path tokens and
template parts in lockstep (Go iterates path tokens by index and breaks once
the index reaches the template's part count). -/
def toMapLoop (fstr pstr : GoString) :
    List Part → List GoString → SMap → Except MismatchError SMap
  | _, [], m => .ok m
  | [], _, m => .ok m
  | p :: ps, t :: ts, m =>
    if p.var ≠ [] then toMapLoop fstr pstr ps ts (m.insert p.var t)
    else if p.static = t then toMapLoop fstr pstr ps ts m
    else .error ⟨fstr, pstr, p.static, t⟩

/-- `Format.ToMap` from `format.go`. -/
def Format.ToMap (f : Format) (path : GoString) : Except MismatchError SMap :=
  toMapLoop f.str path f.parts (split path) SMap.empty

end Strict

/-! ## The lenient variant (`unnamed/part_000`) -/

namespace Lenient

structure NamedPart where
  name : GoString
  index : Nat
  deriving DecidableEq, Repr

structure Format where
  namedParts : List NamedPart
  deriving DecidableEq, Repr

/-- The loop of `New` from `unnamed/part_000`: `for i, part := range parts`,
collecting a `namedPart` for every brace-delimited token. -/
def collectNamed : Nat → List GoString → List NamedPart
  | _, [] => []
  | i, tok :: toks =>
    if isVarTok tok then ⟨varName tok, i⟩ :: collectNamed (i + 1) toks
    else collectNamed (i + 1) toks

/-- `New` from `unnamed/part_000`. -/
def New (path : GoString) : Format :=
  { namedParts := collectNamed 0 (split path) }

/-- `Format.ToMap` from `unnamed/part_000`: never fails; for each named part
whose index is within the path's token count, bind the name to that token. -/
def Format.ToMap (f : Format) (path : GoString) : SMap :=
  let parts := split path
  f.namedParts.foldl
    (fun m np =>
      if np.index < parts.length then m.insert np.name (parts.getD np.index [])
      else m)
    SMap.empty

end Lenient

/-! ## Record values and the `strconv` parsers

`ToStruct` switches on `reflect.Value.Kind()`.  A field value is modeled by a
`GoValue` tagged with its kind; integer kinds carry their bit width
(`Type.Bits()`, with `int`/`uint` at 64 bits).  Kinds outside the switch
(structs, slices, maps, ...) are collapsed into `vOther`, which the switch
leaves untouched.  Floating-point values are carried as exact rationals: the
claims below never depend on binary rounding.  The `strconv` parsers are
modeled on their documented behavior for plain literals; digit-separating
underscores, hexadecimal floats and `Inf`/`NaN` are not modeled (no claim
touches them). -/

inductive ParseError where
  /-- `strconv.ErrSyntax`, wrapped in a `NumError` carrying the input. -/
  | badNum (num : GoString)
  /-- `strconv.ErrRange`, wrapped in a `NumError` carrying the input. -/
  | outOfRange (num : GoString)
  deriving DecidableEq, Repr

inductive GoValue where
  | vBool (b : Bool)
  | vFloat (width : Nat) (q : Rat)
  | vInt (width : Nat) (i : Int)
  | vString (s : GoString)
  | vUint (width : Nat) (n : Nat)
  | vOther (kind : GoString)
  deriving DecidableEq, Repr

/-- One struct field as seen through `reflect`: its name, the value of
`Tag.Get("path")` (`""` when no tag is present), the `CanSet` flag and the
current value. -/
structure GoField where
  name : GoString
  tag : GoString
  canSet : Bool
  value : GoValue
  deriving DecidableEq, Repr

/-- `strconv.ParseBool`. -/
def parseBool (s : GoString) : Except ParseError Bool :=
  if s = gs "1" ∨ s = gs "t" ∨ s = gs "T" ∨ s = gs "true" ∨ s = gs "TRUE" ∨ s = gs "True" then
    .ok true
  else if s = gs "0" ∨ s = gs "f" ∨ s = gs "F" ∨ s = gs "false" ∨ s = gs "FALSE" ∨ s = gs "False" then
    .ok false
  else .error (.badNum s)

/-- The numeric value of one digit character, or `none` when the character is
not a digit in any base up to 36. -/
def digitVal (c : Char) : Option Nat :=
  if '0' ≤ c ∧ c ≤ '9' then some (c.toNat - 48)
  else if 'a' ≤ c ∧ c ≤ 'z' then some (c.toNat - 87)
  else if 'A' ≤ c ∧ c ≤ 'Z' then some (c.toNat - 55)
  else none

/-- Accumulate a digit string in the given base; `none` on an empty string or
on a character that is not a digit below the base. -/
def parseDigits (base : Nat) : List Char → Option Nat
  | [] => none
  | ds =>
    ds.foldlM
      (fun acc c =>
        match digitVal c with
        | some d => if d < base then some (acc * base + d) else none
        | none => none)
      0

/-- Base detection of `strconv` base-0 parsing: `0x`/`0X` → 16, `0o`/`0O` → 8,
`0b`/`0B` → 2, a leading `0` followed by more characters → legacy octal,
otherwise base 10. -/
def baseAndDigits : GoString → Nat × GoString
  | '0' :: 'x' :: rest => (16, rest)
  | '0' :: 'X' :: rest => (16, rest)
  | '0' :: 'o' :: rest => (8, rest)
  | '0' :: 'O' :: rest => (8, rest)
  | '0' :: 'b' :: rest => (2, rest)
  | '0' :: 'B' :: rest => (2, rest)
  | '0' :: c :: rest => (8, '0' :: c :: rest)
  | s => (10, s)

/-- `strconv.ParseUint(s, 0, bits)`: no sign permitted, auto-detected radix,
range check against `2^bits - 1`. -/
def parseUint (s : GoString) (bits : Nat) : Except ParseError Nat :=
  let bd := baseAndDigits s
  match parseDigits bd.1 bd.2 with
  | none => .error (.badNum s)
  | some n => if n < 2 ^ bits then .ok n else .error (.outOfRange s)

/-- `strconv.ParseInt(s, 0, bits)`: optional sign, then unsigned parsing with
auto-detected radix, range check against `[-2^(bits-1), 2^(bits-1) - 1]`. -/
def parseInt (s : GoString) (bits : Nat) : Except ParseError Int :=
  match s with
  | [] => .error (.badNum s)
  | c :: rest =>
    let sd : Bool × GoString :=
      if c = '-' then (true, rest) else if c = '+' then (false, rest) else (false, c :: rest)
    let bd := baseAndDigits sd.2
    match parseDigits bd.1 bd.2 with
    | none => .error (.badNum s)
    | some n =>
      if sd.1 then
        if n ≤ 2 ^ (bits - 1) then .ok (-(n : Int)) else .error (.outOfRange s)
      else
        if n < 2 ^ (bits - 1) then .ok (n : Int) else .error (.outOfRange s)

/-- `strconv.ParseFloat` on plain decimal notation
(`[+-]digits[.digits][eE[+-]digits]`), with the value kept as an exact
rational. -/
def parseFloat (s : GoString) : Except ParseError Rat :=
  match s with
  | [] => .error (.badNum s)
  | c :: rest =>
    let sd : Bool × GoString :=
      if c = '-' then (true, rest) else if c = '+' then (false, rest) else (false, c :: rest)
    let intDigits := sd.2.takeWhile (fun d => decide ('0' ≤ d ∧ d ≤ '9'))
    let afterInt := sd.2.dropWhile (fun d => decide ('0' ≤ d ∧ d ≤ '9'))
    let fd : GoString × GoString :=
      match afterInt with
      | '.' :: r => (r.takeWhile (fun d => decide ('0' ≤ d ∧ d ≤ '9')),
                     r.dropWhile (fun d => decide ('0' ≤ d ∧ d ≤ '9')))
      | r => ([], r)
    if intDigits ++ fd.1 = [] then .error (.badNum s)
    else
      let mant : Rat :=
        ((parseDigits 10 (intDigits ++ fd.1)).getD 0 : Int) / ((10 : Rat) ^ fd.1.length)
      let mant := if sd.1 then -mant else mant
      match fd.2 with
      | [] => .ok mant
      | e :: er =>
        if e = 'e' ∨ e = 'E' then
          match er with
          | [] => .error (.badNum s)
          | c2 :: er2 =>
            let esd : Bool × GoString :=
              if c2 = '-' then (true, er2)
              else if c2 = '+' then (false, er2) else (false, c2 :: er2)
            match parseDigits 10 esd.2 with
            | none => .error (.badNum s)
            | some ex =>
              if esd.2.all (fun d => decide ('0' ≤ d ∧ d ≤ '9')) then
                .ok (if esd.1 then mant / (10 : Rat) ^ ex else mant * (10 : Rat) ^ ex)
              else .error (.badNum s)
        else .error (.badNum s)

/-- The errors `ToStruct`/`FromStruct` can return. -/
inductive GoError where
  /-- The strict `ToMap` error, forwarded by the strict `ToStruct`. -/
  | mismatch (e : Strict.MismatchError)
  /-- `fmt.Errorf("private fields with %q tags are unexported: %q", tag, tf.Name)`. -/
  | inaccessibleField (tagVal fieldName : GoString)
  /-- A `strconv` parse error returned unchanged by `ToStruct`. -/
  | numErr (e : ParseError)
  /-- `fmt.Errorf("field %q not found", field)` from `structField`. -/
  | fieldNotFound (fieldTag : GoString)
  deriving DecidableEq, Repr

instance exceptDecEq {e a : Type} [DecidableEq e] [DecidableEq a] :
    DecidableEq (Except e a) := fun x y =>
  match x, y with
  | .error e1, .error e2 =>
    if h : e1 = e2 then .isTrue (by rw [h]) else .isFalse (fun hc => h (Except.error.inj hc))
  | .ok a1, .ok a2 =>
    if h : a1 = a2 then .isTrue (by rw [h]) else .isFalse (fun hc => h (Except.ok.inj hc))
  | .error e1, .ok a2 => .isFalse (fun hc => Except.noConfusion hc)
  | .ok a1, .error e2 => .isFalse (fun hc => Except.noConfusion hc)

/-- The `switch ef.Kind()` body of `ToStruct` (identical in both variants):
given the mapping's string and the field's current value, produce the new
field value or the parse error.  Kinds outside the switch fall through with no
mutation; `reflect.Int64` has its own case in the source with the same body as
the other signed-integer cases. -/
def setField (v : GoString) : GoValue → Except ParseError GoValue
  | .vBool _ => (parseBool v).map .vBool
  | .vFloat w _ => (parseFloat v).map (.vFloat w)
  | .vInt w _ => (parseInt v w).map (.vInt w)
  | .vString _ => .ok (.vString v)
  | .vUint w _ => (parseUint v w).map (.vUint w)
  | .vOther k => .ok (.vOther k)

/-- The field loop of `ToStruct` (identical in both variants).  Returns the
field list after the call together with the error, if any: on the first
failure the loop stops, keeping every mutation made so far and leaving all
later fields untouched. -/
def bindFields (m : SMap) : List GoField → List GoField × Option GoError
  | [] => ([], none)
  | f :: fs =>
    if f.canSet = false then
      if f.tag ≠ [] then (f :: fs, some (.inaccessibleField f.tag f.name))
      else (f :: (bindFields m fs).1, (bindFields m fs).2)
    else
      match m f.tag with
      | none => (f :: (bindFields m fs).1, (bindFields m fs).2)
      | some v =>
        match setField v f.value with
        | .error pe => (f :: fs, some (.numErr pe))
        | .ok nv => ({ f with value := nv } :: (bindFields m fs).1, (bindFields m fs).2)

/-- `Format.ToStruct` from `format.go`: `ToMap`, then the field loop. -/
def Strict.Format.ToStruct (f : Strict.Format) (s : GoString) (x : List GoField) :
    List GoField × Option GoError :=
  match f.ToMap s with
  | .error e => (x, some (.mismatch e))
  | .ok m => bindFields m x

/-- `Format.ToStruct` from `unnamed/part_000`: same field loop over the
lenient mapping (which cannot fail). -/
def Lenient.Format.ToStruct (f : Lenient.Format) (s : GoString) (x : List GoField) :
    List GoField × Option GoError :=
  bindFields (f.ToMap s) x

/-- `fmt.Sprintf("%v", value)` for the value kinds modeled here (the float
case prints the exact rational — the claims never inspect it). -/
def formatValue : GoValue → GoString
  | .vBool b => if b then gs "true" else gs "false"
  | .vFloat _ q => (toString q).data
  | .vInt _ i => (toString i).data
  | .vString s => s
  | .vUint _ n => (toString n).data
  | .vOther k => k

/-- `structField` from `format.go`: the formatted value of the first field
whose `path` tag equals `field`, or a not-found error. -/
def structField (s : List GoField) (field : GoString) : Except GoError GoString :=
  match s.find? (fun f => f.tag == field) with
  | some f => .ok (formatValue f.value)
  | none => .error (.fieldNotFound field)

/-- The rendering loop of `FromStruct` from `format.go`: one output token per
part, stopping at the first `structField` failure. -/
def renderParts (s : List GoField) : List Strict.Part → Except GoError (List GoString)
  | [] => .ok []
  | p :: ps =>
    if p.var ≠ [] then
      match structField s p.var with
      | .error e => .error e
      | .ok val => (renderParts s ps).map (val :: ·)
    else
      (renderParts s ps).map (p.static :: ·)

/-- `Format.FromStruct` from `format.go`: render every part, join with `/`,
and re-prepend a leading `/` when the template string had one. -/
def Strict.Format.FromStruct (f : Strict.Format) (s : List GoField) :
    Except GoError GoString :=
  match renderParts s f.parts with
  | .error e => .error e
  | .ok toks =>
    if (gs "/").isPrefixOf f.str then .ok ('/' :: goJoin '/' toks)
    else .ok (goJoin '/' toks)

/-! ## Matcher characterization

Both matchers bind a (nonempty) variable name `v` to the path token at the
highest index, below both segment counts, where the template holds a variable
named `v`.  `lastVarBind` computes that token; the lemmas below prove both
`ToMap`s against it. -/

/-- `orD a b`: `a` when it is `some`, otherwise `b`. -/
def orD : Option GoString → Option GoString → Option GoString
  | some r, _ => some r
  | none, b => b

/-- The token bound to variable `v` by a walk of `parts` and `toks` in
lockstep, where a later binding overwrites an earlier one. -/
def lastVarBind (v : GoString) : List Strict.Part → List GoString → Option GoString
  | p :: ps, t :: ts =>
    match lastVarBind v ps ts with
    | some r => some r
    | none => if p.var = v then some t else none
  | _, _ => none

theorem orD_some {r : GoString} {b : Option GoString} : orD (some r) b = some r := rfl

theorem orD_none {b : Option GoString} : orD none b = b := rfl

theorem lastVarBind_nil_right {v : GoString} {ps : List Strict.Part} :
    lastVarBind v ps [] = none := by
  cases ps <;> rfl

/-- A successful strict `toMapLoop` maps every nonempty name to its last
binding in the walked range, falling back to the initial map. -/
theorem toMapLoop_ok_apply {fstr pstr : GoString} :
    ∀ (ps : List Strict.Part) (ts : List GoString) (m0 m : SMap),
      Strict.toMapLoop fstr pstr ps ts m0 = .ok m →
      ∀ v : GoString, v ≠ [] → m v = orD (lastVarBind v ps ts) (m0 v)
  | [], ts, m0, m, h, v, _ => by
    cases ts <;> simp [Strict.toMapLoop] at h <;> simp [h, lastVarBind, orD]
  | p :: ps, [], m0, m, h, v, _ => by
    simp [Strict.toMapLoop] at h
    simp [h, lastVarBind, orD]
  | p :: ps, t :: ts, m0, m, h, v, hv => by
    rw [Strict.toMapLoop] at h
    by_cases hp : p.var = []
    · simp [hp] at h
      by_cases hst : p.static = t
      · simp [hst] at h
        have := toMapLoop_ok_apply ps ts m0 m h v hv
        rw [this, lastVarBind]
        have hpv : ¬ p.var = v := by simp [hp]; intro hc; exact hv hc
        cases hlv : lastVarBind v ps ts <;> simp [orD, hpv]
      · simp [hst] at h
    · simp [hp] at h
      have := toMapLoop_ok_apply ps ts (m0.insert p.var t) m h v hv
      rw [this, lastVarBind]
      cases hlv : lastVarBind v ps ts
      · simp [orD, SMap.insert]
        by_cases hvv : p.var = v
        · simp [hvv]
        · have : ¬ v = p.var := fun hc => hvv hc.symm
          simp [hvv, this]
      · simp [orD]

/-- A successful strict `toMapLoop` never writes the empty key. -/
theorem toMapLoop_ok_empty {fstr pstr : GoString} :
    ∀ (ps : List Strict.Part) (ts : List GoString) (m0 m : SMap),
      Strict.toMapLoop fstr pstr ps ts m0 = .ok m → m [] = m0 []
  | [], ts, m0, m, h => by
    cases ts <;> simp [Strict.toMapLoop] at h <;> simp [h]
  | p :: ps, [], m0, m, h => by
    simp [Strict.toMapLoop] at h; simp [h]
  | p :: ps, t :: ts, m0, m, h => by
    rw [Strict.toMapLoop] at h
    by_cases hp : p.var = []
    · simp [hp] at h
      by_cases hst : p.static = t
      · simp [hst] at h
        exact toMapLoop_ok_empty ps ts m0 m h
      · simp [hst] at h
    · simp [hp] at h
      have := toMapLoop_ok_empty ps ts (m0.insert p.var t) m h
      rw [this]
      simp [SMap.insert]
      intro hc
      exact absurd hc hp

/-- The strict loop fails exactly when some walked index pairs a part with an
empty `variable` field (a static part) against a differing path token. -/
theorem toMapLoop_error_iff {fstr pstr : GoString} :
    ∀ (ps : List Strict.Part) (ts : List GoString) (m0 : SMap),
      (∃ e, Strict.toMapLoop fstr pstr ps ts m0 = .error e) ↔
      ∃ (i : Nat) (p : Strict.Part) (t : GoString),
        ps[i]? = some p ∧ ts[i]? = some t ∧ p.var = [] ∧ p.static ≠ t
  | [], ts, m0 => by
    cases ts <;> simp [Strict.toMapLoop]
  | p :: ps, [], m0 => by
    simp [Strict.toMapLoop]
  | p :: ps, t :: ts, m0 => by
    rw [Strict.toMapLoop]
    by_cases hp : p.var = []
    · by_cases hst : p.static = t
      · rw [if_neg (by simp [hp]), if_pos hst, toMapLoop_error_iff ps ts m0]
        constructor
        · rintro ⟨i, q, w, h1, h2, h3, h4⟩
          refine ⟨i + 1, q, w, ?_, ?_, h3, h4⟩
          · rwa [List.getElem?_cons_succ]
          · rwa [List.getElem?_cons_succ]
        · rintro ⟨i, q, w, h1, h2, h3, h4⟩
          cases i with
          | zero =>
            rw [List.getElem?_cons_zero] at h1 h2
            obtain rfl : p = q := Option.some.inj h1
            obtain rfl : t = w := Option.some.inj h2
            exact absurd hst h4
          | succ i =>
            rw [List.getElem?_cons_succ] at h1 h2
            exact ⟨i, q, w, h1, h2, h3, h4⟩
      · rw [if_neg (by simp [hp]), if_neg hst]
        constructor
        · intro
          exact ⟨0, p, t, by simp, by simp, hp, hst⟩
        · intro
          exact ⟨⟨fstr, pstr, p.static, t⟩, rfl⟩
    · rw [if_pos hp, toMapLoop_error_iff ps ts (m0.insert p.var t)]
      constructor
      · rintro ⟨i, q, w, h1, h2, h3, h4⟩
        refine ⟨i + 1, q, w, ?_, ?_, h3, h4⟩
        · rwa [List.getElem?_cons_succ]
        · rwa [List.getElem?_cons_succ]
      · rintro ⟨i, q, w, h1, h2, h3, h4⟩
        cases i with
        | zero =>
          rw [List.getElem?_cons_zero] at h1
          obtain rfl : p = q := Option.some.inj h1
          exact absurd h3 hp
        | succ i =>
          rw [List.getElem?_cons_succ] at h1 h2
          exact ⟨i, q, w, h1, h2, h3, h4⟩

/-- When the strict loop fails, the error carries the template string, the
path string, and the expected/actual tokens of a walked static mismatch. -/
theorem toMapLoop_error_fields {fstr pstr : GoString} :
    ∀ (ps : List Strict.Part) (ts : List GoString) (m0 : SMap) (e : Strict.MismatchError),
      Strict.toMapLoop fstr pstr ps ts m0 = .error e →
      e.format = fstr ∧ e.path = pstr ∧
        ∃ (i : Nat) (p : Strict.Part) (t : GoString),
          ps[i]? = some p ∧ ts[i]? = some t ∧ p.var = [] ∧
            e.expected = p.static ∧ e.actual = t ∧ p.static ≠ t
  | [], ts, m0, e, h => by
    cases ts <;> simp [Strict.toMapLoop] at h
  | p :: ps, [], m0, e, h => by
    simp [Strict.toMapLoop] at h
  | p :: ps, t :: ts, m0, e, h => by
    rw [Strict.toMapLoop] at h
    by_cases hp : p.var = []
    · by_cases hst : p.static = t
      · rw [if_neg (by simp [hp]), if_pos hst] at h
        obtain ⟨h1, h2, i, q, w, h3, h4, h5, h6, h7, h8⟩ :=
          toMapLoop_error_fields ps ts m0 e h
        refine ⟨h1, h2, i + 1, q, w, ?_, ?_, h5, h6, h7, h8⟩
        · rwa [List.getElem?_cons_succ]
        · rwa [List.getElem?_cons_succ]
      · rw [if_neg (by simp [hp]), if_neg hst] at h
        obtain rfl : Strict.MismatchError.mk fstr pstr p.static t = e := Except.error.inj h
        exact ⟨rfl, rfl, 0, p, t, by simp, by simp, hp, rfl, rfl, hst⟩
    · rw [if_pos hp] at h
      obtain ⟨h1, h2, i, q, w, h3, h4, h5, h6, h7, h8⟩ :=
        toMapLoop_error_fields ps ts (m0.insert p.var t) e h
      refine ⟨h1, h2, i + 1, q, w, ?_, ?_, h5, h6, h7, h8⟩
      · rwa [List.getElem?_cons_succ]
      · rwa [List.getElem?_cons_succ]

/-- `lastVarBind` finds nothing when the variable `v` appears at no walked
index. -/
theorem lastVarBind_eq_none {v : GoString} :
    ∀ (ps : List Strict.Part) (ts : List GoString),
      (∀ (i : Nat) (p : Strict.Part) (t : GoString),
        ps[i]? = some p → ts[i]? = some t → p.var ≠ v) →
      lastVarBind v ps ts = none
  | [], ts, _ => by cases ts <;> rfl
  | _ :: _, [], _ => rfl
  | p :: ps, t :: ts, h => by
    have htail : lastVarBind v ps ts = none :=
      lastVarBind_eq_none ps ts (fun i q w hq hw =>
        h (i + 1) q w (by rwa [List.getElem?_cons_succ]) (by rwa [List.getElem?_cons_succ]))
    have hq : p.var ≠ v := h 0 p t (by simp) (by simp)
    rw [lastVarBind, htail]
    simp [hq]

/-- `lastVarBind` returns the binding at index `i` when the variable `v`
appears there and at no later walked index. -/
theorem lastVarBind_eq_some {v : GoString} :
    ∀ (ps : List Strict.Part) (ts : List GoString) (i : Nat) (p : Strict.Part) (t : GoString),
      ps[i]? = some p → ts[i]? = some t → p.var = v →
      (∀ (j : Nat) (q : Strict.Part) (w : GoString),
        i < j → ps[j]? = some q → ts[j]? = some w → q.var ≠ v) →
      lastVarBind v ps ts = some t
  | [], ts, i, p, t, h1, _, _, _ => by simp at h1
  | _ :: _, [], i, p, t, _, h2, _, _ => by simp at h2
  | q :: ps, w :: ts, 0, p, t, h1, h2, h3, h4 => by
    rw [List.getElem?_cons_zero] at h1 h2
    obtain rfl : q = p := Option.some.inj h1
    obtain rfl : w = t := Option.some.inj h2
    rw [lastVarBind,
      lastVarBind_eq_none ps ts (fun j q' w' hq hw =>
        h4 (j + 1) q' w' (Nat.succ_pos j)
          (by rwa [List.getElem?_cons_succ]) (by rwa [List.getElem?_cons_succ]))]
    simp [h3]
  | q :: ps, w :: ts, i + 1, p, t, h1, h2, h3, h4 => by
    rw [List.getElem?_cons_succ] at h1 h2
    have htail := lastVarBind_eq_some ps ts i p t h1 h2 h3
      (fun j q' w' hj hq hw =>
        h4 (j + 1) q' w' (Nat.succ_lt_succ hj)
          (by rwa [List.getElem?_cons_succ]) (by rwa [List.getElem?_cons_succ]))
    rw [lastVarBind, htail]

/-- Any binding found by `lastVarBind` comes from some walked index holding
the variable `v`. -/
theorem lastVarBind_some_src {v : GoString} :
    ∀ (ps : List Strict.Part) (ts : List GoString) (r : GoString),
      lastVarBind v ps ts = some r →
      ∃ (i : Nat) (p : Strict.Part), ps[i]? = some p ∧ ts[i]? = some r ∧ p.var = v
  | [], ts, r, h => by cases ts <;> simp [lastVarBind] at h
  | _ :: _, [], r, h => by simp [lastVarBind] at h
  | p :: ps, t :: ts, r, h => by
    rw [lastVarBind] at h
    cases htail : lastVarBind v ps ts with
    | some r' =>
      rw [htail] at h
      have hrr : r' = r := by simpa using h
      subst hrr
      obtain ⟨i, q, h1, h2, h3⟩ := lastVarBind_some_src ps ts r' htail
      refine ⟨i + 1, q, ?_, ?_, h3⟩
      · rwa [List.getElem?_cons_succ]
      · rwa [List.getElem?_cons_succ]
    | none =>
      rw [htail] at h
      by_cases hpv : p.var = v
      · have htr : t = r := by simpa [hpv] using h
        exact ⟨0, p, by simp, by simp [htr], hpv⟩
      · simp [hpv] at h

/-- `lastVarBind` finds a binding as soon as the variable `v` appears at some
walked index. -/
theorem lastVarBind_isSome {v : GoString} :
    ∀ (ps : List Strict.Part) (ts : List GoString) (i : Nat) (p : Strict.Part),
      ps[i]? = some p → i < ts.length → p.var = v →
      (lastVarBind v ps ts).isSome
  | [], ts, i, p, h1, _, _ => by simp at h1
  | _ :: _, [], i, p, _, h2, _ => by simp at h2
  | q :: ps, w :: ts, 0, p, h1, h2, h3 => by
    rw [List.getElem?_cons_zero] at h1
    obtain rfl : q = p := Option.some.inj h1
    rw [lastVarBind]
    cases htail : lastVarBind v ps ts
    · simp [h3]
    · simp
  | q :: ps, w :: ts, i + 1, p, h1, h2, h3 => by
    rw [List.getElem?_cons_succ] at h1
    have hrec := lastVarBind_isSome ps ts i p h1 (Nat.lt_of_succ_lt_succ (by simpa using h2)) h3
    rw [lastVarBind]
    cases htail : lastVarBind v ps ts
    · rw [htail] at hrec; simp at hrec
    · simp

theorem lastVarBind_nil {v : GoString} {ts : List GoString} :
    lastVarBind v [] ts = none := by
  cases ts <;> rfl

theorem orD_none_right {a : Option GoString} : orD a none = a := by
  cases a <;> rfl

theorem drop_getD_cons :
    ∀ (ts : List GoString) (k : Nat), k < ts.length →
      ts.drop k = ts.getD k [] :: ts.drop (k + 1)
  | t :: ts, 0, _ => rfl
  | t :: ts, k + 1, h => by
    have := drop_getD_cons ts k (Nat.lt_of_succ_lt_succ h)
    simpa using this

/-- The fold inside the lenient `ToMap`, over named parts collected from
index `k` on, looks up a nonempty variable exactly like a lockstep walk of
the remaining tokens. -/
theorem lenientFold {v : GoString} (hv : v ≠ []) (ts : List GoString) :
    ∀ (toks : List GoString) (k : Nat) (m0 : SMap),
      ((Lenient.collectNamed k toks).foldl
        (fun m np => if np.index < ts.length then m.insert np.name (ts.getD np.index []) else m)
        m0) v
      = orD (lastVarBind v (toks.map Strict.tokPart) (ts.drop k)) (m0 v)
  | [], k, m0 => by
    simp [Lenient.collectNamed, lastVarBind_nil, orD]
  | tok :: toks, k, m0 => by
    rw [Lenient.collectNamed]
    by_cases hb : isVarTok tok
    · rw [if_pos hb, List.foldl_cons]
      rw [lenientFold hv ts toks (k + 1)
        (if (k : Nat) < ts.length then m0.insert (varName tok) (ts.getD k []) else m0)]
      by_cases hk : k < ts.length
      · rw [drop_getD_cons ts k hk, List.map_cons, lastVarBind]
        cases htail : lastVarBind v (toks.map Strict.tokPart) (ts.drop (k + 1)) with
        | some r => simp [orD]
        | none =>
          simp only [orD, if_pos hk]
          have hvar : (Strict.tokPart tok).var = varName tok := by
            simp [Strict.tokPart, hb]
          rw [hvar]
          by_cases hvv : varName tok = v
          · simp [hvv, SMap.insert, orD]
          · have : ¬ v = varName tok := fun hc => hvv hc.symm
            simp [hvv, this, SMap.insert, orD]
      · have hts : ts.drop k = [] :=
          List.drop_eq_nil_of_le (Nat.le_of_not_lt hk)
        have hts1 : ts.drop (k + 1) = [] :=
          List.drop_eq_nil_of_le (Nat.le_trans (Nat.le_of_not_lt hk) (Nat.le_succ k))
        rw [hts, hts1, if_neg hk, lastVarBind_nil_right, lastVarBind_nil_right]
    · rw [if_neg hb]
      rw [lenientFold hv ts toks (k + 1) m0]
      by_cases hk : k < ts.length
      · rw [drop_getD_cons ts k hk, List.map_cons, lastVarBind]
        cases htail : lastVarBind v (toks.map Strict.tokPart) (ts.drop (k + 1)) with
        | some r => simp [orD]
        | none =>
          have hvar : (Strict.tokPart tok).var = [] := by
            simp [Strict.tokPart, hb]
          rw [hvar]
          have : ¬ ([] : GoString) = v := fun hc => hv hc.symm
          simp [orD, this]
      · have hts : ts.drop k = [] :=
          List.drop_eq_nil_of_le (Nat.le_of_not_lt hk)
        have hts1 : ts.drop (k + 1) = [] :=
          List.drop_eq_nil_of_le (Nat.le_trans (Nat.le_of_not_lt hk) (Nat.le_succ k))
        rw [hts, hts1, lastVarBind_nil_right, lastVarBind_nil_right]

/-- The lenient fold never writes the empty key when every collected name is
nonempty. -/
theorem lenientFold_empty (ts : List GoString) :
    ∀ (l : List Lenient.NamedPart) (m0 : SMap), (∀ np ∈ l, np.name ≠ []) →
      ((l.foldl
        (fun m np => if np.index < ts.length then m.insert np.name (ts.getD np.index []) else m)
        m0)) [] = m0 []
  | [], m0, _ => rfl
  | np :: l, m0, h => by
    rw [List.foldl_cons,
      lenientFold_empty ts l _ (fun q hq => h q (List.mem_cons_of_mem np hq))]
    by_cases hk : np.index < ts.length
    · rw [if_pos hk]
      have hname : np.name ≠ [] := h np (List.mem_cons_self np l)
      simp only [SMap.insert]
      rw [if_neg (fun hc => hname hc.symm)]
    · rw [if_neg hk]

/-- Every named part collected by the lenient `New` takes its name from a
brace-delimited token of the template. -/
theorem collectNamed_names :
    ∀ (toks : List GoString) (k : Nat) (np : Lenient.NamedPart),
      np ∈ Lenient.collectNamed k toks →
      ∃ tok ∈ toks, isVarTok tok = true ∧ np.name = varName tok
  | [], k, np, h => by simp [Lenient.collectNamed] at h
  | tok :: toks, k, np, h => by
    rw [Lenient.collectNamed] at h
    by_cases hb : isVarTok tok
    · rw [if_pos hb] at h
      rcases List.mem_cons.mp h with h0 | h1
      · exact ⟨tok, List.mem_cons_self tok toks, hb, by rw [h0]⟩
      · obtain ⟨tok', hm, hv, hn⟩ := collectNamed_names toks (k + 1) np h1
        exact ⟨tok', List.mem_cons_of_mem tok hm, hv, hn⟩
    · rw [if_neg hb] at h
      obtain ⟨tok', hm, hv, hn⟩ := collectNamed_names toks (k + 1) np h
      exact ⟨tok', List.mem_cons_of_mem tok hm, hv, hn⟩

/-- What the lenient `ToMap` binds a nonempty variable to. -/
theorem lenient_toMap_apply {t path v : GoString} (hv : v ≠ []) :
    ((Lenient.New t).ToMap path) v
      = lastVarBind v ((split t).map Strict.tokPart) (split path) := by
  have h := lenientFold hv (split path) (split t) 0 SMap.empty
  rw [List.drop_zero] at h
  simp only [Lenient.New, Lenient.Format.ToMap]
  rw [h]
  cases hx : lastVarBind v ((split t).map Strict.tokPart) (split path) <;> simp [orD, SMap.empty]

/-- What a successful strict `ToMap` binds a nonempty variable to. -/
theorem strict_toMap_apply {t path v : GoString} {m : SMap} (hv : v ≠ [])
    (h : (Strict.New t).ToMap path = .ok m) :
    m v = lastVarBind v ((split t).map Strict.tokPart) (split path) := by
  rw [Strict.Format.ToMap] at h
  have h2 := toMapLoop_ok_apply _ _ _ _ h v hv
  rw [h2]
  have hparts : (Strict.New t).parts = (split t).map Strict.tokPart := rfl
  rw [hparts]
  cases hx : lastVarBind v ((split t).map Strict.tokPart) (split path) <;> simp [orD, SMap.empty]

theorem tokPart_var_eq {tok v : GoString} (hv : v ≠ []) :
    (Strict.tokPart tok).var = v ↔ (isVarTok tok = true ∧ varName tok = v) := by
  rw [Strict.tokPart]
  by_cases hb : isVarTok tok
  · simp [hb]
  · simp [hb]
    intro hc
    exact hv hc

theorem toMapLoop_ts_nil {fstr pstr : GoString} {ps : List Strict.Part} {m : SMap} :
    Strict.toMapLoop fstr pstr ps [] m = .ok m := by
  cases ps <;> rfl

/-- The binding contract of claim C2: for a nonempty variable name `v`, the
mapping binds `v` to the path token at the position of the last variable
segment named `v` lying below both segment counts, and binds `v` to nothing
when no such position exists. -/
def BindsLastVar (t path v : GoString) (m : SMap) : Prop :=
  (∀ (i : Nat) (tok ptok : GoString),
      (split t)[i]? = some tok → (split path)[i]? = some ptok →
      isVarTok tok = true → varName tok = v →
      (∀ (j : Nat) (tok2 ptok2 : GoString), i < j →
        (split t)[j]? = some tok2 → (split path)[j]? = some ptok2 →
        ¬(isVarTok tok2 = true ∧ varName tok2 = v)) →
      m v = some ptok)
  ∧ ((∀ (i : Nat) (tok ptok : GoString),
      (split t)[i]? = some tok → (split path)[i]? = some ptok →
      ¬(isVarTok tok = true ∧ varName tok = v)) →
      m v = none)

/-- A mapping that looks up nonempty variables through `lastVarBind`
satisfies the C2 binding contract. -/
theorem bindsLastVar_of_apply {t path v : GoString} (hv : v ≠ []) {m : SMap}
    (hm : m v = lastVarBind v ((split t).map Strict.tokPart) (split path)) :
    BindsLastVar t path v m := by
  constructor
  · intro i tok ptok h1 h2 h3 h4 h5
    rw [hm]
    apply lastVarBind_eq_some ((split t).map Strict.tokPart) (split path) i
      (Strict.tokPart tok) ptok
    · rw [List.getElem?_map, h1]
      rfl
    · exact h2
    · exact (tokPart_var_eq hv).mpr ⟨h3, h4⟩
    · intro j q w hj hq hw
      rw [List.getElem?_map] at hq
      cases hq2 : (split t)[j]? with
      | none => rw [hq2] at hq; simp at hq
      | some tok2 =>
        rw [hq2] at hq
        simp only [Option.map_some'] at hq
        obtain rfl : Strict.tokPart tok2 = q := Option.some.inj hq
        intro hvar
        exact h5 j tok2 w hj hq2 hw ((tokPart_var_eq hv).mp hvar)
  · intro hno
    rw [hm]
    apply lastVarBind_eq_none
    intro i q w hq hw
    rw [List.getElem?_map] at hq
    cases hq2 : (split t)[i]? with
    | none => rw [hq2] at hq; simp at hq
    | some tok =>
      rw [hq2] at hq
      simp only [Option.map_some'] at hq
      obtain rfl : Strict.tokPart tok = q := Option.some.inj hq
      intro hvar
      exact hno i tok w hq2 hw ((tokPart_var_eq hv).mp hvar)

/-- C2: for every compiled template and every path, `ToMap` walks only
indices below the shorter of the two segment counts; every variable segment
with nonempty name whose index is within the path's segment count produces
exactly one entry binding the name to the path token at that index, the
highest such index winning for duplicate names.  This holds for the lenient
variant's result and for every successful strict result. -/
theorem c2_toMap_bindings (t path v : GoString) (hv : v ≠ []) :
    (∀ m : SMap, (Strict.New t).ToMap path = .ok m → BindsLastVar t path v m)
    ∧ BindsLastVar t path v ((Lenient.New t).ToMap path) :=
  ⟨fun _ h => bindsLastVar_of_apply hv (strict_toMap_apply hv h),
   bindsLastVar_of_apply hv (lenient_toMap_apply hv)⟩

theorem c2_toMap_bindings_witness :
    ((Lenient.New (gs "/items/\x7bid\x7d")).ToMap (gs "/items/123")) (gs "id")
      = some (gs "123") := by
  have h := (c2_toMap_bindings (gs "/items/\x7bid\x7d") (gs "/items/123") (gs "id")
    (by decide)).2.1
  apply h 1 (gs "\x7bid\x7d") (gs "123") (by decide) (by decide) (by decide) rfl
  intro j tok2 ptok2 hj h1 h2
  have hlen : (split (gs "/items/\x7bid\x7d")).length ≤ j := by
    have hcl : (split (gs "/items/\x7bid\x7d")).length = 2 := by decide
    omega
  rw [List.getElem?_eq_none hlen] at h1
  exact absurd h1 (by simp)

/-- C3: when every variable name in a template is nonempty, any path accepted
by the strict variant yields a mapping equal by content to the lenient
variant's mapping on the same template and path. -/
theorem c3_variants_agree (t path : GoString)
    (hnames : ∀ tok ∈ split t, isVarTok tok = true → varName tok ≠ [])
    (m1 : SMap) (h : (Strict.New t).ToMap path = .ok m1) :
    ∀ k, m1 k = ((Lenient.New t).ToMap path) k := by
  intro k
  by_cases hk : k = []
  · subst hk
    rw [Strict.Format.ToMap] at h
    have h1 : m1 [] = SMap.empty [] := toMapLoop_ok_empty _ _ _ _ h
    have h2 : ((Lenient.New t).ToMap path) [] = SMap.empty [] := by
      simp only [Lenient.New, Lenient.Format.ToMap]
      apply lenientFold_empty
      intro np hnp
      obtain ⟨tok, hm, hb, hn⟩ := collectNamed_names (split t) 0 np hnp
      rw [hn]
      exact hnames tok hm hb
    rw [h1, h2]
  · rw [strict_toMap_apply hk h, lenient_toMap_apply hk]

theorem c3_variants_agree_witness :
    (SMap.empty.insert (gs "x") (gs "7")) (gs "x")
      = ((Lenient.New (gs "/a/\x7bx\x7d")).ToMap (gs "/a/7")) (gs "x") :=
  c3_variants_agree (gs "/a/\x7bx\x7d") (gs "/a/7") (by decide)
    (SMap.empty.insert (gs "x") (gs "7")) rfl (gs "x")

/-- C4: the strict `ToMap` rejects `/items/123/invalid/456` against
`/items/{id}/subitems/{subid}` with the expected mismatch data; in general it
fails exactly when some index below the shorter segment count holds a static
template segment (a part whose `variable` field is empty, which is how the
matcher discriminates) whose text differs from the path token there, and the
error carries the template string, the path string, and the expected and
actual tokens. -/
theorem c4_mismatch_error :
    ((Strict.New (gs "/items/\x7bid\x7d/subitems/\x7bsubid\x7d")).ToMap
        (gs "/items/123/invalid/456")
      = .error ⟨gs "/items/\x7bid\x7d/subitems/\x7bsubid\x7d",
          gs "/items/123/invalid/456", gs "subitems", gs "invalid"⟩)
    ∧ (∀ (f : Strict.Format) (path : GoString),
        (∃ e, f.ToMap path = .error e) ↔
        ∃ (i : Nat) (p : Strict.Part) (t : GoString),
          f.parts[i]? = some p ∧ (split path)[i]? = some t ∧ p.var = [] ∧ p.static ≠ t)
    ∧ (∀ (f : Strict.Format) (path : GoString) (e : Strict.MismatchError),
        f.ToMap path = .error e →
        e.format = f.str ∧ e.path = path ∧
          ∃ (i : Nat) (p : Strict.Part) (t : GoString),
            f.parts[i]? = some p ∧ (split path)[i]? = some t ∧ p.var = [] ∧
              e.expected = p.static ∧ e.actual = t ∧ p.static ≠ t) :=
  ⟨rfl,
   fun f path => toMapLoop_error_iff f.parts (split path) SMap.empty,
   fun f path e h => toMapLoop_error_fields f.parts (split path) SMap.empty e h⟩

theorem c4_mismatch_error_witness :
    (Strict.New (gs "/items/\x7bid\x7d/subitems/\x7bsubid\x7d")).str
        = gs "/items/\x7bid\x7d/subitems/\x7bsubid\x7d"
    ∧ ∃ (i : Nat) (p : Strict.Part) (t : GoString),
        (Strict.New (gs "/items/\x7bid\x7d/subitems/\x7bsubid\x7d")).parts[i]? = some p ∧
        (split (gs "/items/123/invalid/456"))[i]? = some t ∧ p.var = [] ∧
        gs "subitems" = p.static ∧ gs "invalid" = t ∧ p.static ≠ t := by
  have h := (c4_mismatch_error.2.2 (Strict.New (gs "/items/\x7bid\x7d/subitems/\x7bsubid\x7d"))
    (gs "/items/123/invalid/456")
    ⟨gs "/items/\x7bid\x7d/subitems/\x7bsubid\x7d",
      gs "/items/123/invalid/456", gs "subitems", gs "invalid"⟩ c4_mismatch_error.1)
  exact ⟨h.1.symm, h.2.2⟩

/-- C10: a template whose first segment is a variable with nonempty name
matches the empty path in both variants, binding that variable to the empty
string, because splitting the empty string yields one empty token. -/
theorem c10_empty_path (t v tok : GoString) (h0 : (split t)[0]? = some tok)
    (hb : isVarTok tok = true) (hn : varName tok = v) (hv : v ≠ []) :
    split [] = [[]]
    ∧ (∃ m : SMap, (Strict.New t).ToMap [] = .ok m ∧ m v = some [])
    ∧ ((Lenient.New t).ToMap []) v = some [] := by
  refine ⟨rfl, ?_, ?_⟩
  · cases hsp : split t with
    | nil => rw [hsp] at h0; simp at h0
    | cons a l =>
      rw [hsp] at h0
      have ha : a = tok := by simpa using h0
      rw [ha] at hsp
      have hvar : (Strict.tokPart tok).var = v := by
        rw [Strict.tokPart, if_pos hb, hn]
      refine ⟨SMap.empty.insert v [], ?_, ?_⟩
      · show Strict.toMapLoop t [] ((split t).map Strict.tokPart) (split []) SMap.empty = _
        rw [hsp, List.map_cons, show split ([] : GoString) = [] :: [] from rfl]
        rw [Strict.toMapLoop, if_pos (by rw [hvar]; exact hv), hvar, toMapLoop_ts_nil]
      · simp [SMap.insert]
  · rw [lenient_toMap_apply hv]
    cases hsp : split t with
    | nil => rw [hsp] at h0; simp at h0
    | cons a l =>
      rw [hsp] at h0
      have ha : a = tok := by simpa using h0
      rw [ha] at hsp
      have hvar : (Strict.tokPart tok).var = v := by
        rw [Strict.tokPart, if_pos hb, hn]
      rw [ha, List.map_cons, show split ([] : GoString) = [] :: [] from rfl]
      rw [lastVarBind, lastVarBind_nil_right, hvar]
      simp

theorem c10_empty_path_witness :
    split ([] : GoString) = [[]]
    ∧ (∃ m : SMap, (Strict.New (gs "/\x7bid\x7d/items")).ToMap [] = .ok m
        ∧ m (gs "id") = some [])
    ∧ ((Lenient.New (gs "/\x7bid\x7d/items")).ToMap []) (gs "id") = some [] :=
  c10_empty_path (gs "/\x7bid\x7d/items") (gs "id") (gs "\x7bid\x7d")
    (by decide) (by decide) rfl (by decide)

/-! ## The field loop of `ToStruct` -/

/-- The field loop distributes over list append: it processes the first block
and, unless that block fails, continues with the second. -/
theorem bindFields_append (m : SMap) :
    ∀ (xs ys : List GoField),
      bindFields m (xs ++ ys) =
        (match (bindFields m xs).2 with
         | some e => ((bindFields m xs).1 ++ ys, some e)
         | none => ((bindFields m xs).1 ++ (bindFields m ys).1, (bindFields m ys).2))
  | [], ys => by simp [bindFields]
  | f :: xs, ys => by
    rw [List.cons_append]
    rw [show bindFields m (f :: (xs ++ ys)) =
      (if f.canSet = false then
        if f.tag ≠ [] then (f :: (xs ++ ys), some (.inaccessibleField f.tag f.name))
        else (f :: (bindFields m (xs ++ ys)).1, (bindFields m (xs ++ ys)).2)
      else
        match m f.tag with
        | none => (f :: (bindFields m (xs ++ ys)).1, (bindFields m (xs ++ ys)).2)
        | some v =>
          match setField v f.value with
          | .error pe => (f :: (xs ++ ys), some (.numErr pe))
          | .ok nv =>
            ({ f with value := nv } :: (bindFields m (xs ++ ys)).1,
              (bindFields m (xs ++ ys)).2)) from rfl]
    rw [show bindFields m (f :: xs) =
      (if f.canSet = false then
        if f.tag ≠ [] then (f :: xs, some (.inaccessibleField f.tag f.name))
        else (f :: (bindFields m xs).1, (bindFields m xs).2)
      else
        match m f.tag with
        | none => (f :: (bindFields m xs).1, (bindFields m xs).2)
        | some v =>
          match setField v f.value with
          | .error pe => (f :: xs, some (.numErr pe))
          | .ok nv =>
            ({ f with value := nv } :: (bindFields m xs).1, (bindFields m xs).2)) from rfl]
    by_cases hcs : f.canSet = false
    · by_cases htag : f.tag = []
      · rw [if_pos hcs, if_pos hcs, if_neg (by simp [htag]), if_neg (by simp [htag])]
        rw [bindFields_append m xs ys]
        cases hx2 : (bindFields m xs).2 <;> simp
      · rw [if_pos hcs, if_pos hcs, if_pos (by simp [htag]), if_pos (by simp [htag])]
        simp
    · rw [if_neg hcs, if_neg hcs]
      cases hmf : m f.tag with
      | none =>
        rw [bindFields_append m xs ys]
        cases hx2 : (bindFields m xs).2 <;> simp
      | some v =>
        cases hsf : setField v f.value with
        | error pe => simp [hsf]
        | ok nv =>
          rw [bindFields_append m xs ys]
          cases hx2 : (bindFields m xs).2 <;> simp [hsf]

/-- The field loop leaves a single untagged field alone when the mapping has
no empty-string key. -/
theorem bindFields_skip_untagged {m : SMap} {f : GoField}
    (hm : m [] = none) (hf : f.tag = []) :
    bindFields m [f] = ([f], none) := by
  obtain ⟨nm, tg, cs, val⟩ := f
  simp only at hf
  subst hf
  rw [bindFields]
  by_cases hcs : cs = false
  · rw [if_pos (by simp [hcs])]
    rw [if_neg (by simp)]
    simp [bindFields]
  · rw [if_neg (by simpa using hcs)]
    simp only
    rw [hm]
    simp [bindFields]

/-- The field loop leaves a single field of unsupported kind alone, with no
error, even when its tag is bound in the mapping. -/
theorem bindFields_skip_unsupported {m : SMap} {f : GoField} {k : GoString}
    (hcs : f.canSet = true) (hval : f.value = .vOther k) :
    bindFields m [f] = ([f], none) := by
  obtain ⟨nm, tg, cs, val⟩ := f
  simp only at hcs hval
  subst hcs hval
  rw [bindFields]
  rw [if_neg (by simp)]
  cases hmf : m tg with
  | none => simp [bindFields]
  | some v => simp [bindFields, setField]

/-- Any settable field whose tag is not bound in the mapping keeps its exact
pre-call value at its position, whether the loop succeeds or fails. -/
theorem bindFields_untouched (m : SMap) :
    ∀ (fs : List GoField) (i : Nat) (f : GoField),
      fs[i]? = some f → f.canSet = true → m f.tag = none →
      (bindFields m fs).1[i]? = some f
  | [], i, f, h, _, _ => by simp at h
  | g :: fs, 0, f, h, hcs, hmf => by
    rw [List.getElem?_cons_zero] at h
    obtain rfl : g = f := Option.some.inj h
    rw [bindFields]
    rw [if_neg (by simp [hcs])]
    rw [hmf]
    simp
  | g :: fs, i + 1, f, h, hcs, hmf => by
    rw [List.getElem?_cons_succ] at h
    rw [bindFields]
    by_cases hgcs : g.canSet = false
    · by_cases hgt : g.tag = []
      · rw [if_pos hgcs, if_neg (by simp [hgt])]
        show (g :: (bindFields m fs).1)[i + 1]? = some f
        rw [List.getElem?_cons_succ]
        exact bindFields_untouched m fs i f h hcs hmf
      · rw [if_pos hgcs, if_pos (by simp [hgt])]
        show (g :: fs)[i + 1]? = some f
        rw [List.getElem?_cons_succ]
        exact h
    · rw [if_neg hgcs]
      cases hmg : m g.tag with
      | none =>
        show (g :: (bindFields m fs).1)[i + 1]? = some f
        rw [List.getElem?_cons_succ]
        exact bindFields_untouched m fs i f h hcs hmf
      | some v =>
        cases hsg : setField v g.value with
        | error pe =>
          simp only [hsg]
          rw [List.getElem?_cons_succ]
          exact h
        | ok nv =>
          simp only [hsg]
          rw [List.getElem?_cons_succ]
          exact bindFields_untouched m fs i f h hcs hmf

/-- C1 counterexample: `ToStruct` does mutate a field that carries no `path`
tag.  In the lenient variant, the template `/x/{}` produces the empty-string
mapping key, `Tag.Get` returns the empty string for an untagged field, and the
lookup of that key succeeds — so the untagged settable string field `F` is
overwritten from `"orig"` to `"val"`. -/
theorem c1_counterexample :
    ((Lenient.New (gs "/x/\x7b\x7d")).ToStruct (gs "/x/val")
        [⟨gs "F", gs "", true, .vString (gs "orig")⟩]).1
      = [⟨gs "F", gs "", true, .vString (gs "val")⟩] := by decide

/-- C1 (amended): a field without a `path` tag is skipped — no error, no
mutation — whenever the mapping contains no empty-string key; the strict
variant's `ToMap` never produces an empty-string key, so there the skip is
unconditional.  (The lenient variant can produce one from a `{}` template
token, in which case an untagged settable field of supported kind is
overwritten — the counterexample above.) -/
theorem c1_amended_no_touch :
    (∀ (m : SMap) (fs1 fs2 : List GoField) (f : GoField),
      m [] = none → f.tag = [] →
      bindFields m (fs1 ++ f :: fs2) =
        (match (bindFields m fs1).2 with
         | some e => ((bindFields m fs1).1 ++ f :: fs2, some e)
         | none => ((bindFields m fs1).1 ++ f :: (bindFields m fs2).1, (bindFields m fs2).2)))
    ∧ (∀ (f : Strict.Format) (path : GoString) (m : SMap),
        f.ToMap path = .ok m → m [] = none) := by
  constructor
  · intro m fs1 fs2 f hm hf
    have hsingle := bindFields_skip_untagged hm hf
    rw [show fs1 ++ f :: fs2 = fs1 ++ ([f] ++ fs2) from by simp,
      bindFields_append m fs1 ([f] ++ fs2), bindFields_append m [f] fs2, hsingle]
    cases h1 : (bindFields m fs1).2 <;> simp
  · intro f path m h
    rw [Strict.Format.ToMap] at h
    exact toMapLoop_ok_empty _ _ _ _ h

theorem c1_amended_no_touch_witness :
    bindFields SMap.empty
        ([] ++ (⟨gs "F", gs "", true, .vString (gs "hi")⟩ : GoField) :: [])
      = (match (bindFields SMap.empty ([] : List GoField)).2 with
         | some e => ((bindFields SMap.empty ([] : List GoField)).1 ++
             (⟨gs "F", gs "", true, .vString (gs "hi")⟩ : GoField) :: [], some e)
         | none => ((bindFields SMap.empty ([] : List GoField)).1 ++
             (⟨gs "F", gs "", true, .vString (gs "hi")⟩ : GoField) ::
               (bindFields SMap.empty ([] : List GoField)).1,
             (bindFields SMap.empty ([] : List GoField)).2)) :=
  c1_amended_no_touch.1 SMap.empty [] [] ⟨gs "F", gs "", true, .vString (gs "hi")⟩ rfl rfl

/-- C7: a tagged, settable field whose tag has no key in the mapping keeps its
exact pre-call value, whether `ToStruct` succeeds or fails — in both variants;
and binding `/a/abc/b/123` against `/a/{a}/b/{b}/c/{c}/d/{d}` sets only `A`
and `B`, leaving `C` and `D` at their pre-call values. -/
theorem c7_missing_keys :
    (∀ (fmt : Strict.Format) (path : GoString) (x : List GoField) (i : Nat) (f : GoField),
      x[i]? = some f → f.canSet = true →
      (∀ m : SMap, fmt.ToMap path = .ok m → m f.tag = none) →
      (fmt.ToStruct path x).1[i]? = some f)
    ∧ (∀ (fmt : Lenient.Format) (path : GoString) (x : List GoField) (i : Nat) (f : GoField),
      x[i]? = some f → f.canSet = true → (fmt.ToMap path) f.tag = none →
      (fmt.ToStruct path x).1[i]? = some f)
    ∧ (Strict.Format.ToStruct
        (Strict.New (gs "/a/\x7ba\x7d/b/\x7bb\x7d/c/\x7bc\x7d/d/\x7bd\x7d"))
        (gs "/a/abc/b/123")
        [⟨gs "A", gs "a", true, .vString []⟩, ⟨gs "B", gs "b", true, .vInt 64 0⟩,
         ⟨gs "C", gs "c", true, .vFloat 64 0⟩, ⟨gs "D", gs "d", true, .vBool false⟩]
      = ([⟨gs "A", gs "a", true, .vString (gs "abc")⟩,
          ⟨gs "B", gs "b", true, .vInt 64 123⟩,
          ⟨gs "C", gs "c", true, .vFloat 64 0⟩,
          ⟨gs "D", gs "d", true, .vBool false⟩], none)) := by
  refine ⟨?_, ?_, by decide⟩
  · intro fmt path x i f h1 h2 h3
    rw [Strict.Format.ToStruct]
    cases hE : fmt.ToMap path with
    | error e => exact h1
    | ok m => exact bindFields_untouched m x i f h1 h2 (h3 m hE)
  · intro fmt path x i f h1 h2 h3
    exact bindFields_untouched _ x i f h1 h2 h3

theorem c7_missing_keys_witness :
    ((Lenient.New (gs "/a/\x7ba\x7d")).ToStruct (gs "/a/7")
        [⟨gs "C", gs "c", true, .vFloat 64 0⟩]).1[0]?
      = some ⟨gs "C", gs "c", true, .vFloat 64 0⟩ :=
  c7_missing_keys.2.1 (Lenient.New (gs "/a/\x7ba\x7d")) (gs "/a/7")
    [⟨gs "C", gs "c", true, .vFloat 64 0⟩] 0 ⟨gs "C", gs "c", true, .vFloat 64 0⟩
    (by decide) rfl (by decide)

/-- C8: when a coercion fails, the field loop stops at that field with the
parse error; every earlier field keeps its newly-set value and no later field
is processed.  Concretely, `/a/abc/b/xyz` against `/a/{a}/b/{b}/c/{c}/d/{d}`
fails on the integer field `B` while `A` retains its new value `"abc"`. -/
theorem c8_first_failure :
    (∀ (m : SMap) (pre post : List GoField) (f : GoField) (v : GoString) (pe : ParseError),
      (bindFields m pre).2 = none → f.canSet = true →
      m f.tag = some v → setField v f.value = .error pe →
      bindFields m (pre ++ f :: post)
        = ((bindFields m pre).1 ++ f :: post, some (.numErr pe)))
    ∧ (Strict.Format.ToStruct
        (Strict.New (gs "/a/\x7ba\x7d/b/\x7bb\x7d/c/\x7bc\x7d/d/\x7bd\x7d"))
        (gs "/a/abc/b/xyz")
        [⟨gs "A", gs "a", true, .vString []⟩, ⟨gs "B", gs "b", true, .vInt 64 0⟩,
         ⟨gs "C", gs "c", true, .vFloat 64 0⟩, ⟨gs "D", gs "d", true, .vBool false⟩]
      = ([⟨gs "A", gs "a", true, .vString (gs "abc")⟩,
          ⟨gs "B", gs "b", true, .vInt 64 0⟩,
          ⟨gs "C", gs "c", true, .vFloat 64 0⟩,
          ⟨gs "D", gs "d", true, .vBool false⟩],
         some (.numErr (.badNum (gs "xyz"))))) := by
  refine ⟨?_, by decide⟩
  intro m pre post f v pe h2 hcs hmf hsf
  have hsingle : bindFields m (f :: post) = (f :: post, some (.numErr pe)) := by
    rw [bindFields, if_neg (by simp [hcs]), hmf]
    simp [hsf]
  rw [bindFields_append m pre (f :: post), h2]
  simp [hsingle]

theorem c8_first_failure_witness :
    bindFields (SMap.empty.insert (gs "b") (gs "xyz"))
        ([] ++ (⟨gs "B", gs "b", true, .vInt 64 0⟩ : GoField) :: [])
      = ((bindFields (SMap.empty.insert (gs "b") (gs "xyz")) ([] : List GoField)).1 ++
          (⟨gs "B", gs "b", true, .vInt 64 0⟩ : GoField) :: [],
         some (.numErr (.badNum (gs "xyz")))) :=
  c8_first_failure.1 (SMap.empty.insert (gs "b") (gs "xyz")) [] []
    ⟨gs "B", gs "b", true, .vInt 64 0⟩ (gs "xyz") (.badNum (gs "xyz"))
    rfl rfl (by decide) rfl

/-- C9: a tagged, settable field whose kind is outside the supported set
(bool, signed/unsigned integer, float, string) is left untouched with no
error, even when its tag has a matching key in the mapping. -/
theorem c9_unsupported_kind :
    (∀ (m : SMap) (fs1 fs2 : List GoField) (f : GoField) (k : GoString),
      f.canSet = true → f.value = .vOther k →
      bindFields m (fs1 ++ f :: fs2) =
        (match (bindFields m fs1).2 with
         | some e => ((bindFields m fs1).1 ++ f :: fs2, some e)
         | none => ((bindFields m fs1).1 ++ f :: (bindFields m fs2).1, (bindFields m fs2).2)))
    ∧ (∀ (m : SMap) (f : GoField) (k : GoString),
      f.canSet = true → f.value = .vOther k → bindFields m [f] = ([f], none))
    ∧ (Strict.Format.ToStruct (Strict.New (gs "/a/\x7ba\x7d")) (gs "/a/zzz")
        [⟨gs "S", gs "a", true, .vOther (gs "struct")⟩]
      = ([⟨gs "S", gs "a", true, .vOther (gs "struct")⟩], none)) := by
  refine ⟨?_, ?_, by decide⟩
  · intro m fs1 fs2 f k hcs hval
    have hsingle := bindFields_skip_unsupported hcs hval (m := m)
    rw [show fs1 ++ f :: fs2 = fs1 ++ ([f] ++ fs2) from by simp,
      bindFields_append m fs1 ([f] ++ fs2), bindFields_append m [f] fs2, hsingle]
    cases h1 : (bindFields m fs1).2 <;> simp
  · intro m f k hcs hval
    exact bindFields_skip_unsupported hcs hval

theorem c9_unsupported_kind_witness :
    bindFields (SMap.empty.insert (gs "a") (gs "zzz"))
        [⟨gs "S", gs "a", true, .vOther (gs "struct")⟩]
      = ([⟨gs "S", gs "a", true, .vOther (gs "struct")⟩], none) :=
  c9_unsupported_kind.2.1 (SMap.empty.insert (gs "a") (gs "zzz"))
    ⟨gs "S", gs "a", true, .vOther (gs "struct")⟩ (gs "struct") rfl rfl

/-! ## The template compiler -/

theorem trimHead_slash_cons (r : GoString) : trimHead (gs "/") ('/' :: r) = r := by
  have hp : (gs "/").isPrefixOf ('/' :: r) = true := by
    show List.isPrefixOf ['/'] ('/' :: r) = true
    simp [List.isPrefixOf]
  rw [trimHead, if_pos hp]
  rfl

theorem trimHead_no_slash {p : GoString} (h : ¬ (gs "/").isPrefixOf p = true) :
    trimHead (gs "/") p = p := by
  rw [trimHead, if_neg h]

/-- When a string ends in the separator, the tail of `splitCharNE` ends in an
empty token. -/
theorem splitCharNE_ends :
    ∀ s : GoString, s.getLast? = some '/' →
      ∃ init, (splitCharNE '/' s).2 = init ++ [([] : GoString)]
  | [], h => by simp at h
  | [a], h => by
    have ha : a = '/' := by simpa using h
    subst ha
    exact ⟨[], rfl⟩
  | a :: b :: rest, h => by
    rw [List.getLast?_cons_cons] at h
    obtain ⟨init, hinit⟩ := splitCharNE_ends (b :: rest) h
    by_cases hac : a = '/'
    · refine ⟨(splitCharNE '/' (b :: rest)).1 :: init, ?_⟩
      show (if a = '/' then
          (([] : GoString), (splitCharNE '/' (b :: rest)).1 :: (splitCharNE '/' (b :: rest)).2)
        else (a :: (splitCharNE '/' (b :: rest)).1, (splitCharNE '/' (b :: rest)).2)).2
        = (splitCharNE '/' (b :: rest)).1 :: init ++ [([] : GoString)]
      rw [if_pos hac]
      simp [hinit]
    · refine ⟨init, ?_⟩
      show (if a = '/' then
          (([] : GoString), (splitCharNE '/' (b :: rest)).1 :: (splitCharNE '/' (b :: rest)).2)
        else (a :: (splitCharNE '/' (b :: rest)).1, (splitCharNE '/' (b :: rest)).2)).2
        = init ++ [([] : GoString)]
      rw [if_neg hac]
      exact hinit

/-- A template string ending in `/` splits into tokens ending in the empty
token. -/
theorem split_ends_slash (p : GoString) (h : p.getLast? = some '/') :
    ∃ init, split p = init ++ [([] : GoString)] := by
  rw [split]
  by_cases hpre : (gs "/").isPrefixOf p = true
  · cases p with
    | nil => simp at h
    | cons c cs =>
      have hc : '/' = c := by simpa [List.isPrefixOf, gs] using hpre
      subst hc
      rw [trimHead_slash_cons]
      cases cs with
      | nil => exact ⟨[], rfl⟩
      | cons b rest =>
        have h2 : (b :: rest).getLast? = some '/' := by
          rwa [List.getLast?_cons_cons] at h
        obtain ⟨init, hinit⟩ := splitCharNE_ends (b :: rest) h2
        refine ⟨(splitCharNE '/' (b :: rest)).1 :: init, ?_⟩
        rw [splitChar, hinit]
        rfl
  · rw [trimHead_no_slash hpre]
    obtain ⟨init, hinit⟩ := splitCharNE_ends p h
    refine ⟨(splitCharNE '/' p).1 :: init, ?_⟩
    rw [splitChar, hinit]
    rfl

/-- C5: `New` strips one leading `/`, splits on `/`, and for each token emits
a variable part (brace-delimited token, name stripped of one leading `{` and
one trailing `}`) or a static part holding the raw token; a template ending in
`/` has a trailing empty static part; and the example template compiles to the
expected four segments. -/
theorem c5_compile :
    ((Strict.New (gs "/items/\x7bid\x7d/subitems/\x7bsubid\x7d")).parts
      = [⟨gs "items", gs ""⟩, ⟨gs "", gs "id"⟩, ⟨gs "subitems", gs ""⟩, ⟨gs "", gs "subid"⟩])
    ∧ (∀ p : GoString, (Strict.New p).parts.length = (split p).length)
    ∧ (∀ (p : GoString) (i : Nat) (tok : GoString), (split p)[i]? = some tok →
        (Strict.New p).parts[i]?
          = some (if isVarTok tok = true then ⟨[], varName tok⟩ else ⟨tok, []⟩))
    ∧ (∀ p : GoString, p.getLast? = some '/' →
        (Strict.New p).parts.getLast? = some ⟨[], []⟩) := by
  refine ⟨by decide, ?_, ?_, ?_⟩
  · intro p
    exact List.length_map (split p) Strict.tokPart
  · intro p i tok h
    show ((split p).map Strict.tokPart)[i]? = _
    rw [List.getElem?_map, h]
    rfl
  · intro p h
    obtain ⟨init, hinit⟩ := split_ends_slash p h
    show ((split p).map Strict.tokPart).getLast? = some ⟨[], []⟩
    rw [hinit, List.map_append,
      show List.map Strict.tokPart [([] : GoString)] = [Strict.tokPart []] from rfl,
      List.getLast?_concat]
    rfl

theorem c5_compile_witness :
    (Strict.New (gs "/x/")).parts.getLast? = some ⟨[], []⟩ :=
  c5_compile.2.2.2 (gs "/x/") (by decide)

/-! ## Rendering and the round trip -/

theorem splitCharNE_no_slash :
    ∀ v : GoString, '/' ∉ v → splitCharNE '/' v = (v, [])
  | [], _ => rfl
  | c :: cs, h => by
    have hmem : '/' ∉ cs := fun hm => h (List.mem_cons_of_mem c hm)
    have hc : ¬ c = '/' := fun hc => h (by rw [hc]; exact List.mem_cons_self '/' cs)
    show (if c = '/' then (([] : GoString), (splitCharNE '/' cs).1 :: (splitCharNE '/' cs).2)
      else (c :: (splitCharNE '/' cs).1, (splitCharNE '/' cs).2)) = (c :: cs, [])
    rw [if_neg hc, splitCharNE_no_slash cs hmem]

theorem splitCharNE_append :
    ∀ (v rest : GoString), '/' ∉ v →
      splitCharNE '/' (v ++ '/' :: rest)
        = (v, (splitCharNE '/' rest).1 :: (splitCharNE '/' rest).2)
  | [], rest, _ => by
    show (if '/' = '/' then
        (([] : GoString), (splitCharNE '/' rest).1 :: (splitCharNE '/' rest).2)
      else ('/' :: (splitCharNE '/' rest).1, (splitCharNE '/' rest).2)) = _
    rw [if_pos rfl]
  | c :: cs, rest, h => by
    have hmem : '/' ∉ cs := fun hm => h (List.mem_cons_of_mem c hm)
    have hc : ¬ c = '/' := fun hc => h (by rw [hc]; exact List.mem_cons_self '/' cs)
    show (if c = '/' then
        (([] : GoString),
          (splitCharNE '/' (cs ++ '/' :: rest)).1 :: (splitCharNE '/' (cs ++ '/' :: rest)).2)
      else (c :: (splitCharNE '/' (cs ++ '/' :: rest)).1, (splitCharNE '/' (cs ++ '/' :: rest)).2))
      = _
    rw [if_neg hc, splitCharNE_append cs rest hmem]

/-- Splitting on `/` inverts joining with `/` for a nonempty list of
slash-free tokens. -/
theorem splitChar_join :
    ∀ (vs : List GoString), vs ≠ [] → (∀ v ∈ vs, '/' ∉ v) →
      splitChar '/' (goJoin '/' vs) = vs
  | [], h, _ => absurd rfl h
  | [v], _, hall => by
    rw [show goJoin '/' [v] = v from rfl, splitChar,
      splitCharNE_no_slash v (hall v (List.mem_singleton.mpr rfl))]
  | v :: w :: vs, _, hall => by
    rw [show goJoin '/' (v :: w :: vs) = v ++ '/' :: goJoin '/' (w :: vs) from rfl, splitChar,
      splitCharNE_append v _ (hall v (List.mem_cons_self v _))]
    have hrec := splitChar_join (w :: vs) (by simp)
      (fun x hx => hall x (List.mem_cons_of_mem v hx))
    rw [splitChar] at hrec
    show v :: ((splitCharNE '/' (goJoin '/' (w :: vs))).1
      :: (splitCharNE '/' (goJoin '/' (w :: vs))).2) = v :: w :: vs
    rw [hrec]

/-- A successful all-variable render produces one token per part, each the
`structField` rendering of that part's variable. -/
theorem renderParts_allvar (s : List GoField) :
    ∀ (ps : List Strict.Part) (vals : List GoString),
      (∀ p ∈ ps, p.var ≠ []) → renderParts s ps = .ok vals →
      vals.length = ps.length ∧
      ∀ (i : Nat) (p : Strict.Part), ps[i]? = some p →
        ∃ val, structField s p.var = .ok val ∧ vals[i]? = some val
  | [], vals, _, h => by
    have hv : vals = [] := by simpa [renderParts] using h.symm
    subst hv
    refine ⟨rfl, ?_⟩
    intro i p hp
    simp at hp
  | p :: ps, vals, hvar, h => by
    have hv : p.var ≠ [] := hvar p (List.mem_cons_self p ps)
    rw [renderParts, if_pos hv] at h
    cases hsf : structField s p.var with
    | error e =>
      rw [hsf] at h
      exact absurd h (by simp)
    | ok val =>
      rw [hsf] at h
      cases hrp : renderParts s ps with
      | error e =>
        rw [hrp] at h
        exact absurd h (by simp [Except.map])
      | ok vals2 =>
        rw [hrp] at h
        have hvals : vals = val :: vals2 := by
          simpa [Except.map] using h.symm
        subst hvals
        obtain ⟨hlen, hpt⟩ := renderParts_allvar s ps vals2
          (fun q hq => hvar q (List.mem_cons_of_mem p hq)) hrp
        refine ⟨by simp [hlen], ?_⟩
        intro i q hq
        cases i with
        | zero =>
          rw [List.getElem?_cons_zero] at hq
          obtain rfl : p = q := Option.some.inj hq
          exact ⟨val, hsf, by simp⟩
        | succ i =>
          rw [List.getElem?_cons_succ] at hq
          obtain ⟨w, hw1, hw2⟩ := hpt i q hq
          exact ⟨w, hw1, by simpa using hw2⟩

/-- A successful `structField` lookup reads the first field carrying the
requested tag. -/
theorem structField_src {s : List GoField} {v val : GoString}
    (h : structField s v = .ok val) :
    ∃ fld ∈ s, fld.tag = v ∧ val = formatValue fld.value := by
  rw [structField] at h
  cases hf : s.find? (fun f => f.tag == v) with
  | none =>
    rw [hf] at h
    exact absurd h (by simp)
  | some fld =>
    rw [hf] at h
    have hval : formatValue fld.value = val := by simpa using h
    have htag : fld.tag = v := by
      have hp := List.find?_some hf
      simpa using hp
    exact ⟨fld, List.mem_of_find?_eq_some hf, htag, hval.symm⟩

/-- The strict matcher accepts any path against an all-variable part list. -/
theorem toMapLoop_allvar_ok {fstr pstr : GoString} :
    ∀ (ps : List Strict.Part) (ts : List GoString) (m0 : SMap),
      (∀ p ∈ ps, p.var ≠ []) →
      ∃ m, Strict.toMapLoop fstr pstr ps ts m0 = .ok m
  | [], ts, m0, _ => by cases ts <;> exact ⟨m0, rfl⟩
  | p :: ps, [], m0, _ => ⟨m0, rfl⟩
  | p :: ps, t :: ts, m0, h => by
    have hv : p.var ≠ [] := h p (List.mem_cons_self p ps)
    obtain ⟨m, hm⟩ := toMapLoop_allvar_ok ps ts (m0.insert p.var t)
      (fun q hq => h q (List.mem_cons_of_mem p hq))
    exact ⟨m, by rw [Strict.toMapLoop, if_pos hv]; exact hm⟩

/-- C6 counterexample: the round trip is not exact for every all-variable
template.  The template `{a}/{b}` has no leading slash; with `A = ""` and
`B = "x"` the render is `"/x"`, whose leading slash `ToMap` strips as if it
were the template's, so `a` is recovered as `"x"` instead of `""`. -/
theorem c6_counterexample :
    ((Strict.New (gs "\x7ba\x7d/\x7bb\x7d")).FromStruct
        [⟨gs "A", gs "a", true, .vString (gs "")⟩,
         ⟨gs "B", gs "b", true, .vString (gs "x")⟩]
      = .ok (gs "/x"))
    ∧ ((match (Strict.New (gs "\x7ba\x7d/\x7bb\x7d")).ToMap (gs "/x") with
        | .ok m => m (gs "a")
        | .error _ => none) = some (gs "x"))
    ∧ some (gs "x") ≠ some (gs "") :=
  ⟨by decide, by decide, by decide⟩

/-- C6 (amended): for a template that begins with `/` and contains only
variable segments, and a source record whose tagged field values are strings
containing no `/`, `FromStruct` followed by `ToMap` succeeds and recovers
every variable's original field value.  (Without the leading slash the
property fails — see the counterexample: an empty first value makes the
rendered path start with `/`, which `ToMap` strips, shifting every token.) -/
theorem c6_round_trip (t : GoString) (ht : (gs "/").isPrefixOf t = true)
    (s : List GoField)
    (hvar : ∀ p ∈ (Strict.New t).parts, p.var ≠ [])
    (hstr : ∀ fld ∈ s, fld.tag ≠ [] → ∃ str, fld.value = .vString str ∧ '/' ∉ str)
    (r : GoString) (hr : (Strict.New t).FromStruct s = .ok r) :
    ∃ m : SMap, (Strict.New t).ToMap r = .ok m ∧
      ∀ p ∈ (Strict.New t).parts, ∃ fld ∈ s, fld.tag = p.var ∧
        ∃ val : GoString, fld.value = .vString val ∧ m p.var = some val := by
  cases hrp : renderParts s (Strict.New t).parts with
  | error e =>
    have hfe : (Strict.New t).FromStruct s = .error e := by
      rw [Strict.Format.FromStruct, hrp]
    rw [hfe] at hr
    exact absurd hr (by simp)
  | ok vals =>
    have hfs : (Strict.New t).FromStruct s = .ok ('/' :: goJoin '/' vals) := by
      rw [Strict.Format.FromStruct, hrp]
      show (if (gs "/").isPrefixOf t = true then Except.ok ('/' :: goJoin '/' vals)
        else Except.ok (goJoin '/' vals)) = Except.ok ('/' :: goJoin '/' vals)
      rw [if_pos ht]
    rw [hfs] at hr
    have hrv : r = '/' :: goJoin '/' vals := (Except.ok.inj hr).symm
    obtain ⟨hlen, hpt⟩ := renderParts_allvar s (Strict.New t).parts vals hvar hrp
    have hpnil : (Strict.New t).parts ≠ [] := by
      have hl : (Strict.New t).parts.length = (split t).length :=
        List.length_map (split t) Strict.tokPart
      intro hc
      rw [hc] at hl
      have h2 : (split t).length ≠ 0 := by
        rw [split, splitChar]
        simp
      exact h2 hl.symm
    have hvnil : vals ≠ [] := by
      intro hc
      rw [hc] at hlen
      exact hpnil (List.length_eq_zero.mp hlen.symm)
    have hslash : ∀ val ∈ vals, '/' ∉ val := by
      intro val hval
      obtain ⟨i, hi⟩ := List.mem_iff_getElem?.mp hval
      have hilen : i < vals.length := by
        by_contra hge
        rw [List.getElem?_eq_none (Nat.le_of_not_lt hge)] at hi
        simp at hi
      have hiparts : i < (Strict.New t).parts.length := by
        rw [← hlen]
        exact hilen
      have hp := List.getElem?_eq_getElem hiparts
      obtain ⟨w, hw1, hw2⟩ := hpt i _ hp
      have hwv : w = val := by
        rw [hi] at hw2
        exact (Option.some.inj hw2).symm
      subst hwv
      have hmem : (Strict.New t).parts.get ⟨i, hiparts⟩ ∈ (Strict.New t).parts :=
        List.get_mem _ i hiparts
      have hpv : ((Strict.New t).parts.get ⟨i, hiparts⟩).var ≠ [] := hvar _ hmem
      obtain ⟨fld, hfmem, hftag, hfval⟩ := structField_src hw1
      obtain ⟨str, hvstr, hslash2⟩ := hstr fld hfmem (by rw [hftag]; exact hpv)
      rw [hfval, hvstr]
      simpa [formatValue] using hslash2
    have hsplit : split r = vals := by
      rw [hrv, split, trimHead_slash_cons]
      exact splitChar_join vals hvnil hslash
    obtain ⟨m, hm⟩ := toMapLoop_allvar_ok (Strict.New t).parts (split r) SMap.empty hvar
    refine ⟨m, hm, ?_⟩
    intro p hp
    have hpv : p.var ≠ [] := hvar p hp
    obtain ⟨i, hi⟩ := List.mem_iff_getElem?.mp hp
    have hilen : i < vals.length := by
      rw [hlen]
      by_contra hge
      rw [List.getElem?_eq_none (Nat.le_of_not_lt hge)] at hi
      simp at hi
    have hsome := lastVarBind_isSome (Strict.New t).parts vals i p hi hilen rfl
    obtain ⟨bound, hbound⟩ := Option.isSome_iff_exists.mp hsome
    have happly := toMapLoop_ok_apply _ _ _ _ hm p.var hpv
    rw [hsplit, hbound] at happly
    obtain ⟨j, q, hq1, hq2, hq3⟩ := lastVarBind_some_src (Strict.New t).parts vals bound hbound
    obtain ⟨w, hw1, hw2⟩ := hpt j q hq1
    have hwb : w = bound := by
      rw [hq2] at hw2
      exact (Option.some.inj hw2).symm
    subst hwb
    rw [hq3] at hw1
    obtain ⟨fld, hfmem, hftag, hfval⟩ := structField_src hw1
    obtain ⟨str, hvstr, _⟩ := hstr fld hfmem (by rw [hftag]; exact hpv)
    refine ⟨fld, hfmem, hftag, str, hvstr, ?_⟩
    rw [happly, orD_some, hfval, hvstr]
    rfl

theorem c6_round_trip_witness :
    ∃ m : SMap, (Strict.New (gs "/\x7ba\x7d")).ToMap (gs "/abc") = .ok m ∧
      ∀ p ∈ (Strict.New (gs "/\x7ba\x7d")).parts,
        ∃ fld ∈ [(⟨gs "A", gs "a", true, .vString (gs "abc")⟩ : GoField)],
          fld.tag = p.var ∧
          ∃ val : GoString, fld.value = .vString val ∧ m p.var = some val :=
  c6_round_trip (gs "/\x7ba\x7d") (by decide)
    [⟨gs "A", gs "a", true, .vString (gs "abc")⟩]
    (by decide)
    (fun fld hf _ => by
      rw [List.mem_singleton] at hf
      subst hf
      exact ⟨gs "abc", rfl, by decide⟩)
    (gs "/abc") (by decide)
